import Mathlib

/-!
Verification of the iomeshage file-distribution layer (package `iomeshage`).

The Go source is shallowly embedded: every stateful operation becomes a pure
function on an explicit state record.  External nondeterminism (the mesh
transport, the PRNG, temporary-name generation) is supplied by an `Env` of
oracle streams indexed by a per-state freshness counter, so that every concrete
execution of the Go code corresponds to some choice of `Env`.  Machine integers
(`int64` part indices) are modelled as `Int`; byte payloads as `List Nat`;
Go maps as association lists with Go's zero-value lookup semantics.
-/

namespace Iomeshage

/-- Association-list lookup (the model of Go map indexing with comma-ok). -/
def alGet {κ α : Type} [DecidableEq κ] : List (κ × α) → κ → Option α
  | [], _ => none
  | (k', v) :: t, k => if k' = k then some v else alGet t k

/-- Association-list update (the model of Go map assignment). -/
def alSet {κ α : Type} [DecidableEq κ] : List (κ × α) → κ → α → List (κ × α)
  | [], k, v => [(k, v)]
  | (k', v') :: t, k, v => if k' = k then (k, v) :: t else (k', v') :: alSet t k v

/-- Association-list removal (the model of Go `delete`). -/
def alRemove {κ α : Type} [DecidableEq κ] : List (κ × α) → κ → List (κ × α)
  | [], _ => []
  | (k', v') :: t, k => if k' = k then alRemove t k else (k', v') :: alRemove t k

theorem alGet_alSet_self {κ α : Type} [DecidableEq κ] (l : List (κ × α)) (k : κ) (v : α) :
    alGet (alSet l k v) k = some v := by
  induction l with
  | nil => simp [alSet, alGet]
  | cons e t ih =>
    by_cases h : e.1 = k
    · simp [alSet, alGet, h]
    · simp [alSet, alGet, h, ih]

theorem alGet_alSet_ne {κ α : Type} [DecidableEq κ] (l : List (κ × α)) (k k' : κ) (v : α)
    (h : k ≠ k') : alGet (alSet l k v) k' = alGet l k' := by
  induction l with
  | nil => simp [alSet, alGet, h]
  | cons e t ih =>
    by_cases he : e.1 = k
    · simp [alSet, alGet, he, h]
    · simp only [alSet, alGet, he, if_false]
      by_cases he' : e.1 = k'
      · simp [alGet, he']
      · simp [alGet, he', ih]

theorem alGet_alRemove_self {κ α : Type} [DecidableEq κ] (l : List (κ × α)) (k : κ) :
    alGet (alRemove l k) k = none := by
  induction l with
  | nil => simp [alRemove, alGet]
  | cons e t ih =>
    by_cases h : e.1 = k
    · simp [alRemove, h, ih]
    · simp [alRemove, alGet, h, ih]

theorem alGet_alRemove_ne {κ α : Type} [DecidableEq κ] (l : List (κ × α)) (k k' : κ)
    (h : k ≠ k') : alGet (alRemove l k) k' = alGet l k' := by
  have h3 : k' ≠ k := Ne.symm h
  induction l with
  | nil => simp [alRemove]
  | cons e t ih =>
    by_cases he : e.1 = k
    · simp [alRemove, alGet, he, h, ih]
    · by_cases he' : e.1 = k'
      · simp [alRemove, alGet, he, he', h3]
      · simp [alRemove, alGet, he, he', ih]

theorem alSet_alSet {κ α : Type} [DecidableEq κ] (l : List (κ × α)) (k : κ) (v v' : α) :
    alSet (alSet l k v) k v' = alSet l k v' := by
  induction l with
  | nil => simp [alSet]
  | cons e t ih =>
    by_cases h : e.1 = k
    · simp [alSet, h]
    · simp [alSet, h, ih]

/-- Byte payloads (`[]byte` in Go). -/
abbrev Bytes := List Nat

/-- The protocol message kinds (constants `TYPE_INFO`, `TYPE_WHOHAS`, `TYPE_XFER`,
`TYPE_RESPONSE`). -/
inductive MType where
  | INFO
  | WHOHAS
  | XFER
  | RESPONSE
deriving DecidableEq

/-- The protocol envelope (`Message`).  `Typ` stands for the Go field `Type`
(a reserved word in Lean); `Part` carries both a part index and, in INFO
replies, the total part count, exactly as in the source. -/
structure Message where
  From : String := ""
  Typ : MType := MType.INFO
  Filename : String := ""
  TID : Int := 0
  Part : Int := 0
  Perm : Nat := 0
  ACK : Bool := false
  Glob : List String := []
  Data : Bytes := []
deriving DecidableEq

/-- `Transfer` describes an in-flight transfer (source lines 55-62).
`Parts` is the Go `map[int64]bool` of completed parts. -/
structure Transfer where
  Dir : String
  Filename : String
  Parts : List (Int × Bool)
  NumParts : Nat
  Inflight : Int
  Queued : Bool
deriving DecidableEq

/-- Go map read of `Parts` (missing key yields the zero value `false`). -/
def mapGet (ps : List (Int × Bool)) (p : Int) : Bool := (alGet ps p).getD false

/-- A node of the modelled filesystem: a regular file with content bytes and
permission bits, or a directory. -/
inductive FsNode where
  | file (data : Bytes) (perm : Nat)
  | dir
deriving DecidableEq

/-- The filesystem, a flat map from path to node. -/
abbrev Fs := List (String × FsNode)

def fsGet (fs : Fs) (p : String) : Option FsNode := alGet fs p

def fsSet (fs : Fs) (p : String) (n : FsNode) : Fs := alSet fs p n

/-- `filepath.Join base file` for the paths this code builds. -/
def pathJoin (a b : String) : String := a ++ "/" ++ b

/-- `filepath.Base`: the last path component (the characters after the last
slash). -/
def baseName (s : String) : String :=
  String.mk ((s.data.reverse.takeWhile (fun c => c ≠ '/')).reverse)

/-- `filepath.Dir`: everything before the last path component, `.` when the
path has no slash. -/
def dirName (s : String) : String :=
  if '/' ∈ s.data then
    String.mk (((s.data.reverse.dropWhile (fun c => c ≠ '/')).drop 1).reverse)
  else "."

/-- Whether path `p` is the directory `d` itself or lies beneath it; used to
model `os.RemoveAll d`. -/
def underDir (d p : String) : Bool := p == d || p.startsWith (d ++ "/")

/-- `os.RemoveAll d`: drop the directory and everything beneath it. -/
def fsRemoveAll (fs : Fs) (d : String) : Fs := fs.filter (fun e => !underDir d e.1)

/-- `os.Rename old new` (errors ignored by the source at its call site). -/
def fsRename (fs : Fs) (old new : String) : Fs :=
  match fsGet fs old with
  | some n => fsSet (alRemove fs old) new n
  | none => fs

/-- `os.Chmod p perm` on a regular file. -/
def fsChmod (fs : Fs) (p : String) (perm : Nat) : Fs :=
  match fsGet fs p with
  | some (FsNode.file d _) => fsSet fs p (FsNode.file d perm)
  | _ => fs

/-- Append bytes to an existing regular file (the effect of one `io.Copy` onto
the open assembly file). -/
def fsAppend (fs : Fs) (p : String) (d : Bytes) : Fs :=
  match fsGet fs p with
  | some (FsNode.file d0 m) => fsSet fs p (FsNode.file (d0 ++ d) m)
  | _ => fs

/-- The canonical part file name `<basename>.part_<p>` (source line 603/666). -/
def partName (filename : String) (p : Int) : String :=
  baseName filename ++ ".part_" ++ toString p

/-- The canonical part file path `<dir>/<basename>.part_<p>`. -/
def partPath (dir filename : String) (p : Int) : String :=
  dir ++ "/" ++ partName filename p

/-- The `IOMeshage` object state: base path, local node name, head-node
setting, hashing flag, the transfers map and the local filesystem. -/
structure IOM where
  base : String
  name : String
  head : String
  hash : Bool
  transfers : List (String × Transfer)
  fs : Fs

/-- An observable network action of the node. -/
inductive NetEvent where
  | broadcast (m : Message)
  | send (dest : String) (m : Message)
deriving DecidableEq

/-- The simulation state threaded through every operation: the `IOMeshage`
object, the trace of network actions, the list of spawned part-fetcher tasks
(`go iom.getParts(use)`), and a freshness counter indexing the oracle
streams. -/
structure St where
  iom : IOM
  trace : List NetEvent
  spawned : List Message
  fresh : Nat

/-- The environment of oracle streams standing for external nondeterminism:
the transport's recipient counts and in-time responses per collection round,
the source-selection verdicts, fresh temporary names, PRNG draws, and
per-XFER outcomes (`none` is a NACK, a timeout or a send error). -/
structure Env where
  recipients : Nat → Nat
  resps : Nat → List Message
  useSel : Nat → Option (Option Message)
  tempName : Nat → String
  rand : Nat → Nat
  xfer : Nat → Option Bytes
  catFile : Nat → String

def MAX_ATTEMPTS : Nat := 3

def QUEUE_LEN : Nat := 3

/-- Modelled from the spec: the INFO response collector (`Files`, built by
`NewFiles` and `Files.add` in a source file that is not under src/).  Per
section 4.3 of the spec it aggregates the ACKed responses, retaining the head
configuration and the hashing flag; the model keeps the ACKed messages in
arrival order. -/
structure Files where
  head : String
  hash : Bool
  msgs : List Message
deriving DecidableEq

/-- Modelled from the spec: `NewFiles` starts an empty collection. -/
def NewFiles (head : String) (hash : Bool) : Files := ⟨head, hash, []⟩

/-- Modelled from the spec: `add` retains one ACKed response. -/
def Files.add (fls : Files) (m : Message) : Files := { fls with msgs := fls.msgs ++ [m] }

/-- Modelled from the spec: `messages` returns the retained ACKed responses. -/
def Files.messages (fls : Files) : List Message := fls.msgs

/-- The INFO request broadcast by `info` (source lines 108-113).  TIDs are
drawn from the registry; their value is irrelevant to the properties proved
here, so the model fixes them to 0. -/
def infoMsg (iom : IOM) (file : String) : Message :=
  { From := iom.name, Typ := MType.INFO, Filename := file, TID := 0 }

/-- The response-collection loop of `info` (source lines 127-143): one
iteration per broadcast recipient, each consuming either the next in-time
response (ACKs are aggregated, NACKs are dropped) or — once the in-time
responses run out — the `time.After` timeout, which makes `info` return the
error `"timeout"`. -/
def infoLoop (acc : Files) : Nat → List Message → Except String Files
  | 0, _ => Except.ok acc
  | _ + 1, [] => Except.error "timeout"
  | n + 1, r :: rest => infoLoop (if r.ACK then acc.add r else acc) n rest

/-- `info` (source lines 104-146): broadcast an INFO request, then wait for
one response per recipient or a timeout.  `recipients` is the count returned
by `node.Broadcast`; `resps` are the responses that arrive within the per-wait
timeout, in order. -/
def infoFn (iom : IOM) (file : String) (recipients : Nat) (resps : List Message) :
    Except String Files × List NetEvent :=
  (infoLoop (NewFiles iom.head iom.hash) recipients resps, [NetEvent.broadcast (infoMsg iom file)])

/-- `MITM` (source lines 653-675): snoop a forwarded RESPONSE and cache the
part if a matching transfer wants it. -/
def MITM (iom : IOM) (m : Message) : IOM :=
  if m.Typ ≠ MType.RESPONSE ∨ m.ACK = false ∨ m.Data.length = 0 then iom
  else
    match alGet iom.transfers m.Filename with
    | none => iom
    | some f =>
      if f.Inflight = m.Part then iom
      else if mapGet f.Parts m.Part = false then
        { iom with
          fs := fsSet iom.fs (partPath f.Dir f.Filename m.Part) (FsNode.file m.Data 0o664),
          transfers := alSet iom.transfers m.Filename
            { f with Parts := alSet f.Parts m.Part true } }
      else iom

/-- `Status` deep-copy semantics is proved on the pointer-level model below;
here we only need the error kinds of `Get`. -/
inductive GetErr where
  | inFlight
  | other (msg : String)
deriving DecidableEq

/-- Whether `file` resolves to an existing local regular file under the base
path (the `err == nil && !fi.IsDir()` test of source lines 216-217). -/
def localFile (iom : IOM) (file : String) : Bool :=
  match fsGet iom.fs (pathJoin iom.base file) with
  | some (FsNode.file _ _) => true
  | _ => false

/-- The recursive per-glob-entry loop of `Get` (source lines 296-306): call
`Get` on each entry, skipping names already in flight from this call, ignoring
`ErrInFlight` from the recursion and aborting on any other error. -/
def globLoop (rec : Env → St → String → Option GetErr × St) (env : Env) :
    St → List String → List String → Option GetErr × St
  | st, [], _ => (none, st)
  | st, x :: xs, infl =>
    if infl.contains x then globLoop rec env st xs infl
    else
      match rec env st x with
      | (some GetErr.inFlight, st') => globLoop rec env st' xs infl
      | (some e, st') => (some e, st')
      | (none, st') => globLoop rec env st' xs infl

/-- Fisher-Yates shuffle as in the source (lines 288-294 and 404-410): one
swap per index from `len-1` down to `1`, the swap partner drawn from the PRNG
modulo `i+1`. -/
def swapIdx {α : Type} (l : List α) (i j : Nat) : List α :=
  match l.get? i, l.get? j with
  | some a, some b => (l.set i b).set j a
  | _, _ => l

def fyLoop {α : Type} (rand : Nat → Nat) : Nat → List α → List α
  | 0, l => l
  | i + 1, l => fyLoop rand i (swapIdx l (rand (i + 1) % (i + 2)) (i + 1))

def fisherYates {α : Type} (rand : Nat → Nat) (l : List α) : List α :=
  fyLoop rand (l.length - 1) l

/-- The per-response loop of `Get` (source lines 244-308).  `Files.use` lives
in a source file that is not under src/; per the spec (section 4.3) it picks
the source peer from mesh route distances, which are external to this model,
so its verdict is drawn from the environment stream `useSel`: `none` is the
not-ok outcome, `some none` the local-copy-is-authoritative outcome, and
`some (some m)` the chosen source ACK. -/
def getMsgs (rec : Env → St → String → Option GetErr × St) (env : Env) (exLocal : Bool) :
    St → List Message → List String → Option GetErr × St
  | st, [], _ => (none, st)
  | st, v :: rest, infl =>
    if v.Glob.length = 0 then
      if infl.contains v.Filename then getMsgs rec env exLocal st rest infl
      else
        let k := st.fresh
        let st1 : St := { st with fresh := k + 1 }
        match env.useSel k with
        | none => getMsgs rec env exLocal st1 rest infl
        | some none => getMsgs rec env exLocal st1 rest infl
        | some (some use) =>
          let k2 := st1.fresh
          let tdir := pathJoin st1.iom.base ("transfer_" ++ env.tempName k2)
          let transfer : Transfer :=
            { Dir := tdir, Filename := use.Filename, Parts := [],
              NumParts := use.Part.toNat, Inflight := -1, Queued := true }
          let st2 : St :=
            { st1 with
              fresh := k2 + 1,
              iom := { st1.iom with
                       fs := fsSet st1.iom.fs tdir FsNode.dir,
                       transfers := alSet st1.iom.transfers use.Filename transfer },
              spawned := st1.spawned ++ [use] }
          getMsgs rec env exLocal st2 rest (infl ++ [use.Filename])
    else
      let k := st.fresh
      let st1 : St := { st with fresh := k + v.Glob.length }
      let shuffled := fisherYates (fun i => env.rand (k + i)) v.Glob
      match globLoop rec env st1 shuffled infl with
      | (some e, st') => (some e, st')
      | (none, st') => getMsgs rec env exLocal st' rest infl

/-- One unfolding of `Get` (source lines 211-311), parameterized by the
recursive occurrence used for glob entries. -/
def getBody (rec : Env → St → String → Option GetErr × St) (env : Env) (st : St)
    (file : String) : Option GetErr × St :=
  if localFile st.iom file ∧ st.iom.head = "" then (none, st)
  else if (alGet st.iom.transfers file).isSome then (some GetErr.inFlight, st)
  else
    let k := st.fresh
    let st1 : St := { st with fresh := k + 1 }
    let res := infoFn st1.iom file (env.recipients k) (env.resps k)
    let st2 : St := { st1 with trace := st1.trace ++ res.2 }
    match res.1 with
    | Except.error e => (some (GetErr.other e), st2)
    | Except.ok fls =>
      if (Files.messages fls).length = 0 then
        (some (GetErr.other ("get " ++ file ++ ": file not found")), st2)
      else getMsgs rec env (localFile st2.iom file) st2 (Files.messages fls) []

/-- `Get` (source lines 211-311).  The fuel bounds the depth of the glob
recursion; exhausting it yields a distinguished error that no claim relies
on. -/
def Get : Nat → Env → St → String → Option GetErr × St
  | 0, _, st, _ => (some (GetErr.other "recursion limit"), st)
  | fuel + 1, env, st, file => getBody (Get fuel) env st file

/-- Replace the transfer registered under `file`. -/
def setTransfer (st : St) (file : String) (t : Transfer) : St :=
  { st with iom := { st.iom with transfers := alSet st.iom.transfers file t } }

/-- Write a regular file into the modelled filesystem. -/
def fsWrite (st : St) (p : String) (d : Bytes) (perm : Nat) : St :=
  { st with iom := { st.iom with fs := fsSet st.iom.fs p (FsNode.file d perm) } }

/-- The directed XFER request sent by `xfer` (source lines 619-625). -/
def xferMsg (name filename : String) (p : Int) : Message :=
  { From := name, Typ := MType.XFER, Filename := filename, TID := 0, Part := p }

/-- The network event of one `xfer` call: a directed send to the source peer. -/
def xferEvent (name : String) (msg : Message) (p : Int) : NetEvent :=
  NetEvent.send msg.From (xferMsg name msg.Filename p)

/-- `getPart` (source lines 568-612): skip parts already completed, record the
in-flight index, issue one directed XFER, and on success write the part file
and mark the part completed.  Where the Go code would fault on a missing
transfer record (a nil-map dereference) the model returns an error string. -/
def getPart (env : Env) (st : St) (msg : Message) (p : Int) : Option String × St :=
  match alGet st.iom.transfers msg.Filename with
  | none => (some "no transfer", st)
  | some t =>
    if mapGet t.Parts p then (none, st)
    else
      let st1 := setTransfer st msg.Filename { t with Inflight := p }
      let k := st1.fresh
      let st2 : St :=
        { st1 with
          trace := st1.trace ++ [xferEvent st1.iom.name msg p],
          fresh := k + 1 }
      match env.xfer k with
      | none => (some "xfer failed", st2)
      | some data =>
        match alGet st2.iom.transfers msg.Filename with
        | none => (some "ghost transfer", st2)
        | some t2 =>
          let st3 := fsWrite st2 (partPath t2.Dir msg.Filename p) data 0o664
          (none, setTransfer st3 msg.Filename { t2 with Parts := alSet t2.Parts p true })

/-- The retry loop of `getParts` (source lines 425-443): up to `MAX_ATTEMPTS`
calls to `getPart`; `true` means some attempt succeeded. -/
def attemptLoop (env : Env) (msg : Message) (p : Int) : Nat → St → Bool × St
  | 0, st => (false, st)
  | n + 1, st =>
    match getPart env st msg p with
    | (none, st') => (true, st')
    | (some _, st') => attemptLoop env msg p n st'

/-- The outer part loop of `getParts` (source lines 422-452): for each part in
the shuffled order, retry up to `MAX_ATTEMPTS` times; when the attempts are
exhausted and the part is still not completed, abort (`false`). -/
def partsLoop (env : Env) (msg : Message) : List Int → St → Bool × St
  | [], st => (true, st)
  | p :: rest, st =>
    match attemptLoop env msg p MAX_ATTEMPTS st with
    | (true, st') => partsLoop env msg rest st'
    | (false, st') =>
      let done :=
        match alGet st'.iom.transfers msg.Filename with
        | some t => mapGet t.Parts p
        | none => false
      if done then partsLoop env msg rest st' else (false, st')

/-- The concatenation loop of `getParts` (source lines 466-478): open each part
file in ascending order and copy it onto the open assembly file.  A missing
part file aborts (`false`); `io.Copy` errors are ignored by the source, so a
directory contributes nothing. -/
def catLoop (dir fname catP : String) : List Nat → Fs → Bool × Fs
  | [], fs => (true, fs)
  | i :: rest, fs =>
    match fsGet fs (partPath dir fname (Int.ofNat i)) with
    | some (FsNode.file d _) => catLoop dir fname catP rest (fsAppend fs catP d)
    | some FsNode.dir => catLoop dir fname catP rest fs
    | none => (false, fs)

/-- `os.MkdirAll` restricted to the flat path model: fail on an existing
regular file, succeed (creating the directory node if needed) otherwise. -/
def mkdirAll (fs : Fs) (p : String) : Option Fs :=
  match fsGet fs p with
  | some (FsNode.file _ _) => none
  | some FsNode.dir => some fs
  | none => some (fsSet fs p FsNode.dir)

/-- The assembly phase of `getParts` (source lines 456-500): create a `cat_`
assembly file in the scratch directory, concatenate the parts in ascending
order, ensure the target directory exists, rename the assembly file to the
target path and apply the declared permission bits. -/
def assemble (env : Env) (st : St) (msg : Message) : St :=
  match alGet st.iom.transfers msg.Filename with
  | none => st
  | some t =>
    let k := st.fresh
    let catP := t.Dir ++ "/" ++ env.catFile k
    let st1 : St :=
      { st with
        fresh := k + 1,
        iom := { st.iom with fs := fsSet st.iom.fs catP (FsNode.file [] 0o600) } }
    match catLoop t.Dir msg.Filename catP (List.range msg.Part.toNat) st1.iom.fs with
    | (false, fs') => { st1 with iom := { st1.iom with fs := fs' } }
    | (true, fs') =>
      let fullPath := pathJoin st1.iom.base msg.Filename
      match mkdirAll fs' (dirName fullPath) with
      | none => { st1 with iom := { st1.iom with fs := fs' } }
      | some fs2 =>
        let fs3 := fsRename fs2 catP fullPath
        let fs4 := fsChmod fs3 fullPath msg.Perm
        { st1 with iom := { st1.iom with fs := fs4 } }

/-- Modelled from the spec: `touch` (called by `getParts` but defined in a
source file that is not under src/) creates an empty file at the given path
with the declared permission bits. -/
def touch (fs : Fs) (p : String) (perm : Nat) : Fs := fsSet fs p (FsNode.file [] perm)

/-- `iom.transfers[msg.Filename].Queued = false` (source lines 418-420). -/
def setQueuedFalse (st : St) (file : String) : St :=
  match alGet st.iom.transfers file with
  | some t => setTransfer st file { t with Queued := false }
  | none => st

/-- `destroyTempTransfer` (source lines 504-522): remove the scratch directory
with everything beneath it and unregister the transfer; a missing record is
logged and ignored. -/
def destroyTempTransfer (st : St) (filename : String) : St :=
  match alGet st.iom.transfers filename with
  | none => st
  | some t =>
    { st with iom := { st.iom with
        fs := fsRemoveAll st.iom.fs t.Dir,
        transfers := alRemove st.iom.transfers filename } }

/-- The tail of the fetch phase: on an aborted loop return as-is (the deferred
cleanup still runs); once every part is present, assemble the file. -/
def finishParts (env : Env) (msg : Message) : Bool × St → St
  | (false, st') => st'
  | (true, st') => assemble env st' msg

/-- The body of `getParts` (source lines 379-501) before the deferred
cleanup: the empty-file corner case, the shuffled part order, the admission
handshake (a pure no-op in this sequential model), the fetch loop and the
assembly phase. -/
def getPartsBody (env : Env) (st : St) (msg : Message) : St :=
  if msg.Part = 0 then
    { st with iom := { st.iom with
        fs := touch st.iom.fs (pathJoin st.iom.base msg.Filename) msg.Perm } }
  else
    let k := st.fresh
    let n := msg.Part.toNat
    let st1 : St := { st with fresh := k + n }
    let parts := fisherYates (fun i => env.rand (k + i)) ((List.range n).map Int.ofNat)
    let st2 := setQueuedFalse st1 msg.Filename
    finishParts env msg (partsLoop env msg parts st2)

/-- `getParts` (source lines 379-501) with its deferred `destroyTempTransfer`
(source line 380). -/
def getParts (env : Env) (st : St) (msg : Message) : St :=
  destroyTempTransfer (getPartsBody env st msg) msg.Filename


-- Concrete example data used by witnesses and counterexamples.

/-- An environment whose every XFER attempt fails. -/
def exEnv : Env :=
  { recipients := fun _ => 0, resps := fun _ => [], useSel := fun _ => none,
    tempName := fun _ => "0", rand := fun _ => 0, xfer := fun _ => none,
    catFile := fun _ => "cat_7" }

/-- An environment whose every XFER attempt succeeds with payload `[7]`. -/
def exEnvOk : Env := { exEnv with xfer := fun _ => some [7] }

/-- The source ACK for file `f` on peer `peer` with one part, as handed to the
part fetcher. -/
def exUseMsg : Message := { From := "peer", Filename := "f", Part := 1 }

/-- A freshly created transfer for file `f` with one part and nothing fetched. -/
def exT : Transfer :=
  { Dir := "b/transfer_0", Filename := "f", Parts := [], NumParts := 1,
    Inflight := -1, Queued := false }

/-- A node state with the transfer for `f` registered and the local copy of
`f` already present under the base path, head-node mode disabled. -/
def exStBoth : St :=
  { iom := { base := "b", name := "n", head := "", hash := false,
             transfers := [("f", exT)],
             fs := [("b/f", FsNode.file [1] 420)] },
    trace := [], spawned := [], fresh := 0 }

/-- A node state with the transfer for `f` registered and no local copy. -/
def exStReg : St :=
  { iom := { base := "b", name := "n", head := "", hash := false,
             transfers := [("f", exT)], fs := [] },
    trace := [], spawned := [], fresh := 0 }

/-- C10: for every inbound message that is not an ACKed RESPONSE with a
non-empty payload, `MITM` performs no action at all: the node state is
returned unchanged, whatever transfers exist. -/
theorem mitm_guard_noop (iom : IOM) (m : Message)
    (h : m.Typ ≠ MType.RESPONSE ∨ m.ACK = false ∨ m.Data = []) :
    MITM iom m = iom := by
  unfold MITM
  rw [if_pos]
  rcases h with h | h | h
  · exact Or.inl h
  · exact Or.inr (Or.inl h)
  · exact Or.inr (Or.inr (by simp [h]))

/-- Witness for C10 at a concrete non-RESPONSE message. -/
theorem mitm_guard_noop_witness :
    MITM exStReg.iom { Typ := MType.INFO, ACK := true, Data := [1] } = exStReg.iom :=
  mitm_guard_noop exStReg.iom { Typ := MType.INFO, ACK := true, Data := [1] }
    (Or.inl (by decide))

/-- C5: a forwarded ACKed RESPONSE with a non-empty payload whose filename has
a registered transfer, whose part is not the in-flight part and is not yet
completed, is written to the scratch directory under the canonical part
filename (mode 0664) and marked completed; and on a missing transfer record
`MITM` is a total no-op. -/
theorem mitm_snoop_writes (iom : IOM) (m : Message) (f : Transfer)
    (hT : m.Typ = MType.RESPONSE) (hA : m.ACK = true) (hD : m.Data ≠ [])
    (hf : alGet iom.transfers m.Filename = some f)
    (hifl : f.Inflight ≠ m.Part) (hdone : mapGet f.Parts m.Part = false) :
    (fsGet (MITM iom m).fs (partPath f.Dir f.Filename m.Part)
        = some (FsNode.file m.Data 0o664)
      ∧ alGet (MITM iom m).transfers m.Filename
        = some { f with Parts := alSet f.Parts m.Part true })
    ∧ ∀ (iom2 : IOM) (m2 : Message),
        alGet iom2.transfers m2.Filename = none → MITM iom2 m2 = iom2 := by
  constructor
  · have hm : MITM iom m =
        { iom with
          fs := fsSet iom.fs (partPath f.Dir f.Filename m.Part) (FsNode.file m.Data 0o664),
          transfers := alSet iom.transfers m.Filename
            { f with Parts := alSet f.Parts m.Part true } } := by
      unfold MITM
      rw [if_neg, hf]
      · simp [hifl, hdone]
      · simp [hT, hA, hD]
    rw [hm]
    exact ⟨by simp [fsGet, fsSet, alGet_alSet_self], by simp [alGet_alSet_self]⟩
  · intro iom2 m2 h2
    unfold MITM
    split
    · rfl
    · rw [h2]

/-- A concrete ACKed RESPONSE carrying part 0 of file `f`. -/
def exRespMsg : Message :=
  { Typ := MType.RESPONSE, ACK := true, Data := [3, 4], Filename := "f", Part := 0 }

/-- Witness for C5: a concrete snooped part lands in the scratch directory. -/
theorem mitm_snoop_writes_witness :
    (fsGet (MITM exStReg.iom exRespMsg).fs (partPath "b/transfer_0" "f" 0)
      = some (FsNode.file [3, 4] 0o664))
    ∧ alGet (MITM exStReg.iom exRespMsg).transfers "f"
      = some { exT with Parts := alSet exT.Parts 0 true } := by
  have h := mitm_snoop_writes exStReg.iom exRespMsg
    exT rfl rfl (by decide) rfl (by decide) rfl
  exact ⟨h.1.1, h.1.2⟩

/-- C3 (confirmed): when the name resolves to an existing local regular file
under the base path and head-node mode is disabled, `Get` returns success
immediately with the state (hence trace and transfers) unchanged; running it
twice is therefore the same no-op. -/
theorem get_local_noop (fuel : Nat) (env : Env) (st : St) (file : String)
    (d : Bytes) (perm : Nat)
    (hfs : fsGet st.iom.fs (pathJoin st.iom.base file) = some (FsNode.file d perm))
    (hhead : st.iom.head = "") :
    Get (fuel + 1) env st file = (none, st) := by
  have hl : localFile st.iom file = true := by unfold localFile; rw [hfs]
  show getBody (Get fuel) env st file = (none, st)
  unfold getBody
  rw [if_pos ⟨hl, hhead⟩]

/-- Witness for C3 at a concrete state holding `b/f` locally. -/
theorem get_local_noop_witness :
    Get 1 exEnv exStBoth "f" = (none, exStBoth) :=
  get_local_noop 0 exEnv exStBoth "f" [1] 420 rfl rfl

/-- C1 counterexample: with a transfer for `f` registered but `f` also present
as a local regular file while head-node mode is disabled, `Get` returns `nil`
(success), not `ErrInFlight`: the local-file short-circuit precedes the
in-flight check. -/
theorem get_inflight_counterexample :
    (alGet exStBoth.iom.transfers "f").isSome = true
    ∧ Get 1 exEnv exStBoth "f" = (none, exStBoth) :=
  ⟨rfl, get_local_noop 0 exEnv exStBoth "f" [1] 420 rfl rfl⟩

/-- C1 (amended): when a transfer for the filename is registered and the
local-file short-circuit does not apply, `Get` returns the distinct
`ErrInFlight` error with the state unchanged — in particular it broadcasts no
INFO request and registers no second transfer. -/
theorem get_inflight_amended (fuel : Nat) (env : Env) (st : St) (file : String)
    (hreg : (alGet st.iom.transfers file).isSome = true)
    (hnl : ¬(localFile st.iom file = true ∧ st.iom.head = "")) :
    Get (fuel + 1) env st file = (some GetErr.inFlight, st) := by
  show getBody (Get fuel) env st file = (some GetErr.inFlight, st)
  unfold getBody
  rw [if_neg, if_pos hreg]
  exact hnl

/-- Witness for C1 at a concrete state with a registered transfer and no
local copy. -/
theorem get_inflight_witness :
    Get 1 exEnv exStReg "f" = (some GetErr.inFlight, exStReg) :=
  get_inflight_amended 0 exEnv exStReg "f" rfl (by decide)

/-- Helper for C6: once the in-time responses run out before the recipient
count does, the collection loop returns the `timeout` error. -/
theorem infoLoop_timeout (resps : List Message) :
    ∀ (n : Nat) (acc : Files), resps.length < n →
      infoLoop acc n resps = Except.error "timeout" := by
  induction resps with
  | nil =>
    intro n acc h
    cases n with
    | zero => omega
    | succ n => rfl
  | cons r rest ih =>
    intro n acc h
    cases n with
    | zero => omega
    | succ n =>
      have h2 := ih n (if r.ACK then acc.add r else acc)
        (by simpa using Nat.lt_of_succ_lt_succ h)
      simpa [infoLoop] using h2

/-- C6 counterexample: with one broadcast recipient and no in-time response,
`info` returns the `timeout` error instead of the (empty) aggregate of ACKs
collected so far. -/
theorem info_timeout_counterexample :
    (infoFn exStReg.iom "f" 1 []).1 = Except.error "timeout"
    ∧ (infoFn exStReg.iom "f" 1 []).1
        ≠ Except.ok (NewFiles exStReg.iom.head exStReg.iom.hash) := by
  refine ⟨rfl, ?_⟩
  intro h
  rw [show (infoFn exStReg.iom "f" 1 []).1 = Except.error "timeout" from rfl] at h
  exact Except.noConfusion h

/-- C6 (amended): whenever fewer in-time responses arrive than there were
broadcast recipients, the collection loop terminates — after exactly one
broadcast, without waiting for the missing responders beyond the per-wait
timeout — but it returns the `timeout` error, discarding the ACKs aggregated
so far, rather than yielding them. -/
theorem info_timeout_amended (iom : IOM) (file : String) (recipients : Nat)
    (resps : List Message) (h : resps.length < recipients) :
    infoFn iom file recipients resps
      = (Except.error "timeout", [NetEvent.broadcast (infoMsg iom file)]) := by
  unfold infoFn
  rw [infoLoop_timeout resps recipients _ h]

/-- Witness for C6 (amended) at a concrete round with two recipients and one
response. -/
theorem info_timeout_witness :
    infoFn exStReg.iom "g" 2 [{ ACK := true }]
      = (Except.error "timeout", [NetEvent.broadcast (infoMsg exStReg.iom "g")]) :=
  info_timeout_amended exStReg.iom "g" 2 [{ ACK := true }] (by decide)

/-- C7 (the code against the claim): after `getPart` successfully fetches part
0 — so nothing is being fetched any more — the transfer's `Inflight` field
still holds 0, not the documented idle value `-1`: `getPart` never resets it. -/
theorem getPart_inflight_stays :
    (getPart exEnvOk exStReg exUseMsg 0).1 = none
    ∧ ((alGet (getPart exEnvOk exStReg exUseMsg 0).2.iom.transfers "f").map
        Transfer.Inflight) = some 0 :=
  ⟨rfl, rfl⟩

-- Permutation facts about the modelled Fisher-Yates shuffle.

theorem cons_set_perm {α : Type} (xs : List α) (k : Nat) (b x : α)
    (h : xs[k]? = some b) : (b :: xs.set k x).Perm (x :: xs) := by
  induction xs generalizing k with
  | nil => simp at h
  | cons y s ih =>
    cases k with
    | zero =>
      simp at h
      subst h
      exact List.Perm.swap x y s
    | succ m =>
      simp at h
      have h1 : (b :: y :: s.set m x).Perm (y :: b :: s.set m x) :=
        (List.Perm.swap b y (s.set m x)).symm
      have h2 : (y :: b :: s.set m x).Perm (y :: x :: s) := (ih m h).cons y
      exact (h1.trans h2).trans (List.Perm.swap x y s)

theorem set_set_perm {α : Type} (l : List α) (i j : Nat) (a b : α)
    (hi : l[i]? = some a) (hj : l[j]? = some b) :
    ((l.set i b).set j a).Perm l := by
  induction l generalizing i j with
  | nil => simp at hi
  | cons x t ih =>
    cases i with
    | zero =>
      simp at hi
      subst hi
      cases j with
      | zero =>
        simp at hj
        subst hj
        simp
      | succ m =>
        simp at hj
        simpa using cons_set_perm t m b x hj
    | succ n =>
      cases j with
      | zero =>
        simp at hj
        subst hj
        simp at hi
        simpa using cons_set_perm t n a x hi
      | succ m =>
        simp at hi hj
        simpa using (ih n m hi hj).cons x

theorem swapIdx_perm {α : Type} (l : List α) (i j : Nat) : (swapIdx l i j).Perm l := by
  unfold swapIdx
  split
  · next a b hi hj =>
    rw [List.get?_eq_getElem?] at hi hj
    exact set_set_perm l i j a b hi hj
  · exact List.Perm.refl l

theorem fyLoop_perm {α : Type} (rand : Nat → Nat) :
    ∀ (n : Nat) (l : List α), (fyLoop rand n l).Perm l := by
  intro n
  induction n with
  | zero => intro l; exact List.Perm.refl l
  | succ i ih =>
    intro l
    exact (ih _).trans (swapIdx_perm l _ _)

theorem fisherYates_perm {α : Type} (rand : Nat → Nat) (l : List α) :
    (fisherYates rand l).Perm l :=
  fyLoop_perm rand (l.length - 1) l

-- Counting XFER requests in the network trace.

/-- Whether a network event is a directed XFER request for part `p` of `f`. -/
def isXferFor (f : String) (p : Int) : NetEvent → Bool
  | NetEvent.send _ m => decide (m.Typ = MType.XFER ∧ m.Filename = f ∧ m.Part = p)
  | _ => false

/-- How many XFER requests for part `p` of `f` the trace contains; one per
fetch attempt that reached the network. -/
def countXfer (tr : List NetEvent) (f : String) (p : Int) : Nat :=
  (tr.filter (isXferFor f p)).length

theorem countXfer_append (tr tr2 : List NetEvent) (f : String) (p : Int) :
    countXfer (tr ++ tr2) f p = countXfer tr f p + countXfer tr2 f p := by
  simp [countXfer, List.filter_append]

theorem countXfer_event_le (name : String) (msg : Message) (p : Int) (f : String) (q : Int) :
    countXfer [xferEvent name msg p] f q ≤ if q = p then 1 else 0 := by
  by_cases h : q = p
  · subst h
    simp only [countXfer, if_pos rfl]
    cases hb : isXferFor f q (xferEvent name msg q) <;> simp [List.filter, hb]
  · have h2 : p ≠ q := Ne.symm h
    have hb : isXferFor f q (xferEvent name msg p) = false := by
      simp [isXferFor, xferEvent, xferMsg, h2]
    simp [countXfer, List.filter, hb, h]

theorem getPart_trace (env : Env) (st : St) (msg : Message) (p : Int) :
    (getPart env st msg p).2.trace = st.trace
    ∨ (getPart env st msg p).2.trace = st.trace ++ [xferEvent st.iom.name msg p] := by
  unfold getPart
  split
  · exact Or.inl rfl
  · split
    · exact Or.inl rfl
    · dsimp only
      split
      · exact Or.inr rfl
      · split
        · exact Or.inr rfl
        · exact Or.inr rfl

theorem getPart_count (env : Env) (st : St) (msg : Message) (p : Int) (f : String) (q : Int) :
    countXfer (getPart env st msg p).2.trace f q
      ≤ countXfer st.trace f q + (if q = p then 1 else 0) := by
  rcases getPart_trace env st msg p with h | h
  · rw [h]; exact Nat.le_add_right _ _
  · rw [h, countXfer_append]
    exact Nat.add_le_add_left (countXfer_event_le st.iom.name msg p f q) _

theorem attemptLoop_count (env : Env) (msg : Message) (p : Int) (f : String) (q : Int) :
    ∀ (n : Nat) (st : St),
      countXfer (attemptLoop env msg p n st).2.trace f q
        ≤ countXfer st.trace f q + n * (if q = p then 1 else 0) := by
  intro n
  induction n with
  | zero => intro st; simp [attemptLoop]
  | succ n ih =>
    intro st
    have hg := getPart_count env st msg p f q
    unfold attemptLoop
    cases hgp : getPart env st msg p with
    | mk r st' =>
      rw [hgp] at hg
      cases r with
      | none =>
        refine le_trans hg ?_
        by_cases hqp : q = p <;> simp [hqp]
      | some e =>
        refine le_trans (ih st') (le_trans (Nat.add_le_add_right hg _) ?_)
        by_cases hqp : q = p <;> (simp [hqp]; try omega)

theorem partsLoop_count (env : Env) (msg : Message) (f : String) (q : Int) :
    ∀ (ps : List Int) (st : St),
      countXfer (partsLoop env msg ps st).2.trace f q
        ≤ countXfer st.trace f q + MAX_ATTEMPTS * ps.count q := by
  intro ps
  induction ps with
  | nil => intro st; simp [partsLoop]
  | cons p rest ih =>
    intro st
    have ha := attemptLoop_count env msg p f q MAX_ATTEMPTS st
    have harith : countXfer st.trace f q + MAX_ATTEMPTS * (if q = p then 1 else 0)
        + MAX_ATTEMPTS * rest.count q
        ≤ countXfer st.trace f q + MAX_ATTEMPTS * (p :: rest).count q := by
      rw [List.count_cons]
      by_cases hqp : q = p <;> (simp [hqp, MAX_ATTEMPTS]; try omega)
    unfold partsLoop
    cases hal : attemptLoop env msg p MAX_ATTEMPTS st with
    | mk ok st' =>
      rw [hal] at ha
      cases ok with
      | true =>
        dsimp only
        refine le_trans (ih st') (le_trans (Nat.add_le_add_right ha _) ?_)
        exact harith
      | false =>
        dsimp only
        dsimp only at ha
        split
        · refine le_trans (ih st') (le_trans (Nat.add_le_add_right ha _) ?_)
          exact harith
        · refine le_trans ha (le_trans ?_ harith)
          omega

theorem setQueuedFalse_trace (st : St) (f : String) :
    (setQueuedFalse st f).trace = st.trace := by
  unfold setQueuedFalse
  split <;> rfl

theorem assemble_trace (env : Env) (st : St) (msg : Message) :
    (assemble env st msg).trace = st.trace := by
  unfold assemble
  split
  · rfl
  · dsimp only
    split
    · rfl
    · split
      · rfl
      · rfl

theorem destroy_trace (st : St) (f : String) :
    (destroyTempTransfer st f).trace = st.trace := by
  unfold destroyTempTransfer
  split <;> rfl

theorem fsGet_removeAll_under (fs : Fs) (d q : String) (h : underDir d q = true) :
    fsGet (fsRemoveAll fs d) q = none := by
  induction fs with
  | nil => rfl
  | cons e t ih =>
    by_cases he : underDir d e.1 = true
    · simpa [fsRemoveAll, List.filter, he] using ih
    · have hne : e.1 ≠ q := by
        intro hq
        rw [hq, h] at he
        exact he rfl
      simpa [fsRemoveAll, List.filter, he, fsGet, alGet, hne] using ih

theorem fsGet_removeAll_not (fs : Fs) (d q : String) (h : underDir d q = false) :
    fsGet (fsRemoveAll fs d) q = fsGet fs q := by
  induction fs with
  | nil => rfl
  | cons e t ih =>
    by_cases he : underDir d e.1 = true
    · have hne : e.1 ≠ q := by
        intro hq
        rw [hq, h] at he
        exact Bool.noConfusion he
      simp [fsRemoveAll, List.filter, he, fsGet, alGet, hne] at ih ⊢
      exact ih
    · by_cases hq : e.1 = q
      · simp [fsRemoveAll, List.filter, he, fsGet, alGet, hq, h]
      · simp [fsRemoveAll, List.filter, he, fsGet, alGet, hq] at ih ⊢
        exact ih

/-- C8: for a transfer whose source ACK declares part count 0, the part
fetcher creates an empty file with the declared permission bits at the target
path, issues no network traffic at all (in particular no XFER), removes the
scratch directory, and unregisters the transfer. -/
theorem getParts_empty_file (env : Env) (st : St) (msg : Message) (t : Transfer)
    (ht : alGet st.iom.transfers msg.Filename = some t)
    (hp0 : msg.Part = 0)
    (hout : underDir t.Dir (pathJoin st.iom.base msg.Filename) = false) :
    fsGet (getParts env st msg).iom.fs (pathJoin st.iom.base msg.Filename)
        = some (FsNode.file [] msg.Perm)
    ∧ (getParts env st msg).trace = st.trace
    ∧ (∀ q, underDir t.Dir q = true → fsGet (getParts env st msg).iom.fs q = none)
    ∧ alGet (getParts env st msg).iom.transfers msg.Filename = none := by
  have hfull : getParts env st msg =
      { st with iom := { st.iom with
          fs := fsRemoveAll
            (touch st.iom.fs (pathJoin st.iom.base msg.Filename) msg.Perm) t.Dir,
          transfers := alRemove st.iom.transfers msg.Filename } } := by
    unfold getParts getPartsBody
    rw [if_pos hp0]
    unfold destroyTempTransfer
    simp only []
    rw [ht]
  rw [hfull]
  refine ⟨?_, rfl, ?_, ?_⟩
  · rw [show ({ st with iom := { st.iom with
        fs := fsRemoveAll
          (touch st.iom.fs (pathJoin st.iom.base msg.Filename) msg.Perm) t.Dir,
        transfers := alRemove st.iom.transfers msg.Filename } } : St).iom.fs
      = fsRemoveAll
          (touch st.iom.fs (pathJoin st.iom.base msg.Filename) msg.Perm) t.Dir from rfl]
    rw [fsGet_removeAll_not _ _ _ hout]
    simp [touch, fsGet, fsSet, alGet_alSet_self]
  · intro q hq
    exact fsGet_removeAll_under _ _ _ hq
  · simp [alGet_alRemove_self]

/-- Witness for C8: a zero-part message places an empty `b/g` with mode 420
and leaves no transfer and no scratch directory. -/
theorem getParts_empty_file_witness :
    fsGet (getParts exEnv exStReg { Filename := "f", Part := 0, Perm := 420 }).iom.fs
        (pathJoin "b" "f") = some (FsNode.file [] 420)
    ∧ alGet (getParts exEnv exStReg
        { Filename := "f", Part := 0, Perm := 420 }).iom.transfers "f" = none := by
  have h := getParts_empty_file exEnv exStReg { Filename := "f", Part := 0, Perm := 420 }
    exT rfl rfl (by decide)
  exact ⟨h.1, h.2.2.2⟩

theorem finishParts_trace (env : Env) (msg : Message) (r : Bool × St) :
    (finishParts env msg r).trace = r.2.trace := by
  cases r with
  | mk ok st' => cases ok <;> simp [finishParts, assemble_trace]

theorem partsLoop_count_le (env : Env) (msg : Message) (q : Int) (ps : List Int) (S : St)
    (hS : S.trace = []) (hP : ps.count q ≤ 1) :
    countXfer (partsLoop env msg ps S).2.trace msg.Filename q ≤ MAX_ATTEMPTS := by
  refine le_trans (partsLoop_count env msg msg.Filename q ps S) ?_
  rw [hS]
  have h2 : MAX_ATTEMPTS * ps.count q ≤ MAX_ATTEMPTS * 1 := Nat.mul_le_mul_left _ hP
  simp [countXfer] at h2 ⊢
  omega

theorem getParts_count (env : Env) (st : St) (msg : Message) (q : Int)
    (htr : st.trace = []) :
    countXfer (getParts env st msg).trace msg.Filename q ≤ MAX_ATTEMPTS := by
  unfold getParts
  rw [destroy_trace]
  unfold getPartsBody
  by_cases hp : msg.Part = 0
  · rw [if_pos hp]
    simp [htr, countXfer]
  · rw [if_neg hp]
    dsimp only
    rw [finishParts_trace]
    refine partsLoop_count_le env msg q _ _ ?_ ?_
    · rw [setQueuedFalse_trace]
      exact htr
    · have hnd : (fisherYates (fun i => env.rand (st.fresh + i))
          ((List.range msg.Part.toNat).map Int.ofNat)).Nodup := by
        refine (List.Perm.nodup_iff (fisherYates_perm _ _)).mpr ?_
        exact List.Nodup.map (fun a b hab => Int.ofNat.inj hab) (List.nodup_range _)
      exact List.nodup_iff_count_le_one.mp hnd q

theorem getPart_fail (env : Env) (st : St) (msg : Message) (p : Int) (t : Transfer)
    (ht : alGet st.iom.transfers msg.Filename = some t)
    (hparts : mapGet t.Parts p = false)
    (hx : env.xfer st.fresh = none) :
    getPart env st msg p =
      (some "xfer failed",
        { st with
          trace := st.trace ++ [xferEvent st.iom.name msg p],
          fresh := st.fresh + 1,
          iom := { st.iom with
            transfers := alSet st.iom.transfers msg.Filename { t with Inflight := p } } }) := by
  unfold getPart
  rw [ht]
  dsimp only
  rw [hparts]
  dsimp only [setTransfer]
  rw [hx]
  rfl

theorem attemptLoop_fail (env : Env) (msg : Message) (p : Int)
    (hall : ∀ k, env.xfer k = none) :
    ∀ (n : Nat) (st : St) (t : Transfer),
      alGet st.iom.transfers msg.Filename = some t →
      t.Parts = [] →
      ∃ st' t',
        attemptLoop env msg p n st = (false, st')
        ∧ st'.iom.fs = st.iom.fs
        ∧ st'.iom.base = st.iom.base
        ∧ alGet st'.iom.transfers msg.Filename = some t'
        ∧ t'.Parts = []
        ∧ t'.Dir = t.Dir := by
  intro n
  induction n with
  | zero =>
    intro st t ht hp
    exact ⟨st, t, rfl, rfl, rfl, ht, hp, rfl⟩
  | succ n ih =>
    intro st t ht hp
    have hmg : mapGet t.Parts p = false := by rw [hp]; rfl
    have hgp := getPart_fail env st msg p t ht hmg (hall st.fresh)
    have ht1 : alGet ({ st with
          trace := st.trace ++ [xferEvent st.iom.name msg p],
          fresh := st.fresh + 1,
          iom := { st.iom with
            transfers := alSet st.iom.transfers msg.Filename
              { t with Inflight := p } } } : St).iom.transfers msg.Filename
        = some { t with Inflight := p } := alGet_alSet_self _ _ _
    obtain ⟨st', t', h1, h2, h3, h4, h5, h6⟩ := ih _ _ ht1 hp
    refine ⟨st', t', ?_, h2, h3, h4, h5, h6⟩
    unfold attemptLoop
    rw [hgp]
    exact h1

theorem getParts_abort (env : Env) (st : St) (msg : Message) (t : Transfer)
    (ht : alGet st.iom.transfers msg.Filename = some t)
    (hp : 0 < msg.Part)
    (hparts : t.Parts = [])
    (hall : ∀ k, env.xfer k = none) :
    alGet (getParts env st msg).iom.transfers msg.Filename = none
    ∧ (∀ q, underDir t.Dir q = true → fsGet (getParts env st msg).iom.fs q = none)
    ∧ (underDir t.Dir (pathJoin st.iom.base msg.Filename) = false →
        fsGet (getParts env st msg).iom.fs (pathJoin st.iom.base msg.Filename)
          = fsGet st.iom.fs (pathJoin st.iom.base msg.Filename)) := by
  have hp0 : msg.Part ≠ 0 := by omega
  have hq : setQueuedFalse ({ st with fresh := st.fresh + msg.Part.toNat } : St) msg.Filename
      = setTransfer ({ st with fresh := st.fresh + msg.Part.toNat } : St) msg.Filename
          { t with Queued := false } := by
    unfold setQueuedFalse
    rw [show alGet ({ st with fresh := st.fresh + msg.Part.toNat } : St).iom.transfers
        msg.Filename = some t from ht]
  have ht2 : alGet (setTransfer ({ st with fresh := st.fresh + msg.Part.toNat } : St)
      msg.Filename { t with Queued := false }).iom.transfers msg.Filename
      = some { t with Queued := false } := alGet_alSet_self _ _ _
  have hlen : (fisherYates (fun i => env.rand (st.fresh + i))
      ((List.range msg.Part.toNat).map Int.ofNat)).length = msg.Part.toNat := by
    rw [List.Perm.length_eq (fisherYates_perm _ _)]
    simp
  have hne : fisherYates (fun i => env.rand (st.fresh + i))
      ((List.range msg.Part.toNat).map Int.ofNat) ≠ [] := by
    intro hnil
    rw [hnil] at hlen
    simp at hlen
    omega
  obtain ⟨p, rest, hcons⟩ := List.exists_cons_of_ne_nil hne
  obtain ⟨st', t', h1, h2, h3, h4, h5, h6⟩ :=
    attemptLoop_fail env msg p hall MAX_ATTEMPTS
      (setTransfer ({ st with fresh := st.fresh + msg.Part.toNat } : St)
        msg.Filename { t with Queued := false })
      { t with Queued := false } ht2 hparts
  have hploop : partsLoop env msg
      (fisherYates (fun i => env.rand (st.fresh + i))
        ((List.range msg.Part.toNat).map Int.ofNat))
      (setTransfer ({ st with fresh := st.fresh + msg.Part.toNat } : St)
        msg.Filename { t with Queued := false })
      = (false, st') := by
    rw [hcons]
    unfold partsLoop
    rw [h1]
    dsimp only
    rw [h4]
    dsimp only
    rw [show mapGet t'.Parts p = false from by rw [h5]; rfl]
    simp
  have hbody : getPartsBody env st msg = st' := by
    unfold getPartsBody
    rw [if_neg hp0]
    dsimp only
    rw [hq, hploop]
    rfl
  have hfinal : getParts env st msg =
      { st' with iom := { st'.iom with
          fs := fsRemoveAll st'.iom.fs t'.Dir,
          transfers := alRemove st'.iom.transfers msg.Filename } } := by
    unfold getParts
    rw [hbody]
    unfold destroyTempTransfer
    rw [h4]
  rw [hfinal]
  refine ⟨by simp [alGet_alRemove_self], ?_, ?_⟩
  · intro q hqd
    have : underDir t'.Dir q = true := by rw [h6]; exact hqd
    exact fsGet_removeAll_under _ _ _ this
  · intro hout
    have hout' : underDir t'.Dir (pathJoin st.iom.base msg.Filename) = false := by
      rw [h6]; exact hout
    have := fsGet_removeAll_not st'.iom.fs t'.Dir (pathJoin st.iom.base msg.Filename) hout'
    rw [show ({ st' with iom := { st'.iom with
        fs := fsRemoveAll st'.iom.fs t'.Dir,
        transfers := alRemove st'.iom.transfers msg.Filename } } : St).iom.fs
      = fsRemoveAll st'.iom.fs t'.Dir from rfl]
    rw [this, h2]
    rfl

/-- C4: for every part index, the part fetcher issues at most `MAX_ATTEMPTS`
XFER attempts; and when a part cannot be obtained (every XFER fails), the
transfer aborts: the transfer record is unregistered, the scratch directory is
removed with everything in it, and no file is placed at the target path. -/
theorem getParts_attempts_and_abort (env : Env) (st : St) (msg : Message) (t : Transfer)
    (ht : alGet st.iom.transfers msg.Filename = some t)
    (htr : st.trace = []) :
    (∀ q : Int, countXfer (getParts env st msg).trace msg.Filename q ≤ MAX_ATTEMPTS)
    ∧ ((∀ k, env.xfer k = none) → 0 < msg.Part → t.Parts = [] →
        alGet (getParts env st msg).iom.transfers msg.Filename = none
        ∧ (∀ q, underDir t.Dir q = true → fsGet (getParts env st msg).iom.fs q = none)
        ∧ (underDir t.Dir (pathJoin st.iom.base msg.Filename) = false →
            fsGet (getParts env st msg).iom.fs (pathJoin st.iom.base msg.Filename)
              = fsGet st.iom.fs (pathJoin st.iom.base msg.Filename))) :=
  ⟨fun q => getParts_count env st msg q htr,
   fun hall hpp hparts => getParts_abort env st msg t ht hpp hparts hall⟩

/-- Witness for C4: with every XFER failing, the fetch of the one-part file
`f` issues at most three attempts and unregisters the transfer. -/
theorem getParts_attempts_and_abort_witness :
    countXfer (getParts exEnv exStReg exUseMsg).trace "f" 0 ≤ MAX_ATTEMPTS
    ∧ alGet (getParts exEnv exStReg exUseMsg).iom.transfers "f" = none := by
  have h := getParts_attempts_and_abort exEnv exStReg exUseMsg exT rfl rfl
  exact ⟨h.1 0, (h.2 (fun k => rfl) (by decide) rfl).1⟩

theorem catLoop_spec (dir fname catP : String) (d : Nat → Bytes) (m : Nat → Nat) :
    ∀ (is2 : List Nat) (fs : Fs) (acc : Bytes) (mode : Nat),
      (∀ i ∈ is2, fsGet fs (partPath dir fname (Int.ofNat i)) = some (FsNode.file (d i) (m i))) →
      (∀ i ∈ is2, partPath dir fname (Int.ofNat i) ≠ catP) →
      fsGet fs catP = some (FsNode.file acc mode) →
      ∃ fs2, catLoop dir fname catP is2 fs = (true, fs2)
        ∧ fsGet fs2 catP = some (FsNode.file (acc ++ (is2.map d).flatten) mode)
        ∧ ∀ q, q ≠ catP → fsGet fs2 q = fsGet fs q := by
  intro is2
  induction is2 with
  | nil =>
    intro fs acc mode h1 h2 h3
    exact ⟨fs, rfl, by simpa using h3, fun q _ => rfl⟩
  | cons i rest ih =>
    intro fs acc mode h1 h2 h3
    have hpi := h1 i (List.mem_cons_self i rest)
    have hci := h2 i (List.mem_cons_self i rest)
    have happ : fsAppend fs catP (d i) = fsSet fs catP (FsNode.file (acc ++ d i) mode) := by
      unfold fsAppend
      rw [h3]
    obtain ⟨fs2, hrun, hcat2, hrest⟩ := ih (fsSet fs catP (FsNode.file (acc ++ d i) mode))
      (acc ++ d i) mode
      (by
        intro j hj
        have hj2 := h1 j (List.mem_cons_of_mem i hj)
        have hne : (catP : String) ≠ partPath dir fname (Int.ofNat j) :=
          Ne.symm (h2 j (List.mem_cons_of_mem i hj))
        rw [show fsGet (fsSet fs catP (FsNode.file (acc ++ d i) mode))
              (partPath dir fname (Int.ofNat j))
            = fsGet fs (partPath dir fname (Int.ofNat j)) from alGet_alSet_ne fs _ _ _ hne]
        exact hj2)
      (fun j hj => h2 j (List.mem_cons_of_mem i hj))
      (alGet_alSet_self fs catP _)
    refine ⟨fs2, ?_, ?_, ?_⟩
    · unfold catLoop
      rw [hpi]
      dsimp only
      rw [happ]
      exact hrun
    · rw [hcat2]
      simp
    · intro q hq
      rw [hrest q hq]
      exact alGet_alSet_ne fs catP q _ (Ne.symm hq)

theorem partsLoop_complete (env : Env) (msg : Message) :
    ∀ (ps : List Int) (st : St) (t : Transfer),
      alGet st.iom.transfers msg.Filename = some t →
      (∀ p ∈ ps, mapGet t.Parts p = true) →
      partsLoop env msg ps st = (true, st) := by
  intro ps
  induction ps with
  | nil =>
    intro st t ht hall
    rfl
  | cons p rest ih =>
    intro st t ht hall
    have hp := hall p (List.mem_cons_self p rest)
    have hgp : getPart env st msg p = (none, st) := by
      unfold getPart
      rw [ht]
      dsimp only
      rw [hp]
      rfl
    have hat : attemptLoop env msg p MAX_ATTEMPTS st = (true, st) := by
      show attemptLoop env msg p (Nat.succ 2) st = (true, st)
      unfold attemptLoop
      rw [hgp]
    unfold partsLoop
    rw [hat]
    dsimp only
    exact ih st t ht (fun q hq => hall q (List.mem_cons_of_mem p hq))

theorem rename_chmod_spec (fs : Fs) (catP fullP : String) (data : Bytes) (mode perm : Nat)
    (hc : fsGet fs catP = some (FsNode.file data mode)) :
    fsGet (fsChmod (fsRename fs catP fullP) fullP perm) fullP
      = some (FsNode.file data perm) := by
  unfold fsRename
  rw [hc]
  dsimp only
  unfold fsChmod
  rw [show fsGet (fsSet (alRemove fs catP) fullP (FsNode.file data mode)) fullP
      = some (FsNode.file data mode) from alGet_alSet_self _ _ _]
  exact alGet_alSet_self _ _ _

theorem assemble_spec (env : Env) (st : St) (msg : Message) (t : Transfer)
    (n : Nat) (d : Nat → Bytes) (m : Nat → Nat)
    (ht : alGet st.iom.transfers msg.Filename = some t)
    (hn : msg.Part = Int.ofNat n)
    (hfiles : ∀ i, i < n → fsGet st.iom.fs (partPath t.Dir msg.Filename (Int.ofNat i))
        = some (FsNode.file (d i) (m i)))
    (hcat : ∀ i, i < n → partPath t.Dir msg.Filename (Int.ofNat i)
        ≠ t.Dir ++ "/" ++ env.catFile st.fresh)
    (hdirOk : fsGet st.iom.fs (dirName (pathJoin st.iom.base msg.Filename)) = none
        ∨ fsGet st.iom.fs (dirName (pathJoin st.iom.base msg.Filename)) = some FsNode.dir)
    (hdc : dirName (pathJoin st.iom.base msg.Filename)
        ≠ t.Dir ++ "/" ++ env.catFile st.fresh) :
    fsGet (assemble env st msg).iom.fs (pathJoin st.iom.base msg.Filename)
      = some (FsNode.file ((List.range n).map d).flatten msg.Perm)
    ∧ (assemble env st msg).iom.transfers = st.iom.transfers
    ∧ (assemble env st msg).iom.base = st.iom.base := by
  obtain ⟨fs2, hrun, hcat2, hrest⟩ := catLoop_spec t.Dir msg.Filename
    (t.Dir ++ "/" ++ env.catFile st.fresh) d m (List.range n)
    (fsSet st.iom.fs (t.Dir ++ "/" ++ env.catFile st.fresh) (FsNode.file [] 0o600))
    [] 0o600
    (by
      intro i hi
      have hin := List.mem_range.mp hi
      rw [show fsGet (fsSet st.iom.fs (t.Dir ++ "/" ++ env.catFile st.fresh)
            (FsNode.file [] 0o600)) (partPath t.Dir msg.Filename (Int.ofNat i))
          = fsGet st.iom.fs (partPath t.Dir msg.Filename (Int.ofNat i)) from
        alGet_alSet_ne _ _ _ _ (Ne.symm (hcat i hin))]
      exact hfiles i hin)
    (fun i hi => hcat i (List.mem_range.mp hi))
    (alGet_alSet_self _ _ _)
  rw [List.nil_append] at hcat2
  have hd2 : fsGet fs2 (dirName (pathJoin st.iom.base msg.Filename))
      = fsGet st.iom.fs (dirName (pathJoin st.iom.base msg.Filename)) := by
    rw [hrest _ hdc]
    exact alGet_alSet_ne _ _ _ _ (Ne.symm hdc)
  unfold assemble
  rw [ht]
  dsimp only
  rw [hn]
  rw [show (Int.ofNat n).toNat = n from rfl]
  rw [hrun]
  dsimp only
  rcases hdirOk with hd | hd
  · have hmk : mkdirAll fs2 (dirName (pathJoin st.iom.base msg.Filename))
        = some (fsSet fs2 (dirName (pathJoin st.iom.base msg.Filename)) FsNode.dir) := by
      unfold mkdirAll
      rw [hd2, hd]
    rw [hmk]
    dsimp only
    refine ⟨?_, rfl, rfl⟩
    refine rename_chmod_spec _ _ _ _ 0o600 msg.Perm ?_
    rw [show fsGet (fsSet fs2 (dirName (pathJoin st.iom.base msg.Filename)) FsNode.dir)
          (t.Dir ++ "/" ++ env.catFile st.fresh)
        = fsGet fs2 (t.Dir ++ "/" ++ env.catFile st.fresh) from
      alGet_alSet_ne _ _ _ _ hdc]
    exact hcat2
  · have hmk : mkdirAll fs2 (dirName (pathJoin st.iom.base msg.Filename)) = some fs2 := by
      unfold mkdirAll
      rw [hd2, hd]
    rw [hmk]
    dsimp only
    exact ⟨rename_chmod_spec _ _ _ _ 0o600 msg.Perm hcat2, rfl, rfl⟩

/-- C2: for a transfer whose `n` part files are all present in the scratch
directory (and recorded complete, so no further fetching happens), the part
fetcher concatenates `part_0 … part_{n-1}` in ascending order into a `cat_`
assembly file, renames it to the target path under the base directory and
applies the declared permission bits: the placed target file's bytes are the
in-order concatenation of the part bytes.  The deferred cleanup then removes
the scratch directory and the transfer record. -/
theorem getParts_assembles_concat (env : Env) (st : St) (msg : Message) (t : Transfer)
    (n : Nat) (d : Nat → Bytes) (m : Nat → Nat)
    (ht : alGet st.iom.transfers msg.Filename = some t)
    (hn : msg.Part = Int.ofNat n) (hpos : 0 < n)
    (hdone : ∀ i, i < n → mapGet t.Parts (Int.ofNat i) = true)
    (hfiles : ∀ i, i < n → fsGet st.iom.fs (partPath t.Dir msg.Filename (Int.ofNat i))
        = some (FsNode.file (d i) (m i)))
    (hcat : ∀ i, i < n → partPath t.Dir msg.Filename (Int.ofNat i)
        ≠ t.Dir ++ "/" ++ env.catFile (st.fresh + n))
    (hdirOk : fsGet st.iom.fs (dirName (pathJoin st.iom.base msg.Filename)) = none
        ∨ fsGet st.iom.fs (dirName (pathJoin st.iom.base msg.Filename)) = some FsNode.dir)
    (hdc : dirName (pathJoin st.iom.base msg.Filename)
        ≠ t.Dir ++ "/" ++ env.catFile (st.fresh + n))
    (hout : underDir t.Dir (pathJoin st.iom.base msg.Filename) = false) :
    fsGet (getParts env st msg).iom.fs (pathJoin st.iom.base msg.Filename)
      = some (FsNode.file ((List.range n).map d).flatten msg.Perm)
    ∧ alGet (getParts env st msg).iom.transfers msg.Filename = none := by
  have hp0 : msg.Part ≠ 0 := by
    rw [hn]
    intro hz
    have hz2 : n = 0 := Int.ofNat.inj hz
    omega
  have hq : setQueuedFalse ({ st with fresh := st.fresh + n } : St) msg.Filename
      = setTransfer ({ st with fresh := st.fresh + n } : St) msg.Filename
          { t with Queued := false } := by
    unfold setQueuedFalse
    rw [show alGet ({ st with fresh := st.fresh + n } : St).iom.transfers msg.Filename
        = some t from ht]
  have ht2 : alGet (setTransfer ({ st with fresh := st.fresh + n } : St)
      msg.Filename { t with Queued := false }).iom.transfers msg.Filename
      = some { t with Queued := false } := alGet_alSet_self _ _ _
  have hall : ∀ p ∈ fisherYates (fun i => env.rand (st.fresh + i))
      ((List.range n).map Int.ofNat),
      mapGet ({ t with Queued := false } : Transfer).Parts p = true := by
    intro p hp
    have hmem := (List.Perm.mem_iff (fisherYates_perm _ _)).mp hp
    obtain ⟨i, hi, hpi⟩ := List.mem_map.mp hmem
    have hin := List.mem_range.mp hi
    rw [← hpi]
    exact hdone i hin
  have hploop := partsLoop_complete env msg
    (fisherYates (fun i => env.rand (st.fresh + i)) ((List.range n).map Int.ofNat))
    (setTransfer ({ st with fresh := st.fresh + n } : St) msg.Filename
      { t with Queued := false })
    { t with Queued := false } ht2 hall
  obtain ⟨hfsA, htrA, hbA⟩ := assemble_spec env
    (setTransfer ({ st with fresh := st.fresh + n } : St) msg.Filename
      { t with Queued := false })
    msg { t with Queued := false } n d m ht2 hn hfiles hcat hdirOk hdc
  have hA : alGet (assemble env
      (setTransfer ({ st with fresh := st.fresh + n } : St) msg.Filename
        { t with Queued := false }) msg).iom.transfers msg.Filename
      = some { t with Queued := false } := by
    rw [htrA]
    exact alGet_alSet_self _ _ _
  unfold getParts getPartsBody
  rw [if_neg hp0]
  dsimp only
  rw [hn]
  rw [show (Int.ofNat n).toNat = n from rfl]
  rw [hq, hploop]
  dsimp only [finishParts]
  unfold destroyTempTransfer
  rw [hA]
  dsimp only
  constructor
  · rw [fsGet_removeAll_not _ _ _ hout]
    exact hfsA
  · exact alGet_alRemove_self _ _

/-- The transfer for `f` with its single part recorded complete. -/
def exTdone : Transfer := { exT with Parts := [(0, true)] }

/-- A node state where the single part file of `f` already sits in the scratch
directory and is recorded complete. -/
def exStDone : St :=
  { iom := { base := "b", name := "n", head := "", hash := false,
             transfers := [("f", exTdone)],
             fs := [("b", FsNode.dir), ("b/transfer_0", FsNode.dir),
                    ("b/transfer_0/f.part_0", FsNode.file [9] 436)] },
    trace := [], spawned := [], fresh := 0 }

/-- The source ACK for the one-part file `f` with permission bits 0644. -/
def exMsgC2 : Message := { From := "peer", Filename := "f", Part := 1, Perm := 420 }

/-- Witness for C2: the single part `[9]` is assembled into `b/f` with the
declared permissions, and the transfer is cleaned up. -/
theorem getParts_assembles_concat_witness :
    fsGet (getParts exEnv exStDone exMsgC2).iom.fs (pathJoin "b" "f")
      = some (FsNode.file [9] 420)
    ∧ alGet (getParts exEnv exStDone exMsgC2).iom.transfers "f" = none := by
  have h := getParts_assembles_concat exEnv exStDone exMsgC2 exTdone 1
    (fun _ => [9]) (fun _ => 436) rfl rfl (by decide)
    (by
      intro i hi
      have h0 : i = 0 := by omega
      subst h0
      rfl)
    (by
      intro i hi
      have h0 : i = 0 := by omega
      subst h0
      rfl)
    (by
      intro i hi
      have h0 : i = 0 := by omega
      subst h0
      decide)
    (Or.inr rfl) (by decide) (by decide)
  exact ⟨h.1, h.2⟩

-- Pointer-level model of `Status` (source lines 678-700).  Go `*Transfer`
-- values and map values are references; the deep-copy claim is about that
-- aliasing structure, so here transfer records and parts maps live in an
-- explicit heap of bump-allocated cells.

/-- A `Transfer` heap cell: `PartsAddr` is the address of the separately
allocated completed-parts map, as a Go map value is a reference. -/
structure TCell where
  Dir : String
  Filename : String
  PartsAddr : Nat
  NumParts : Nat
  Inflight : Int
  Queued : Bool
deriving DecidableEq

/-- The heap: transfer cells and parts-map cells addressed by allocation
order, with bump counters. -/
structure Heap where
  tcells : List (Nat × TCell)
  pcells : List (Nat × List (Int × Bool))
  nextT : Nat
  nextP : Nat

def hGetT (h : Heap) (a : Nat) : Option TCell := alGet h.tcells a

def hGetP (h : Heap) (a : Nat) : Option (List (Int × Bool)) := alGet h.pcells a

/-- Overwrite a transfer cell (a mutation through a `*Transfer`). -/
def hSetT (h : Heap) (a : Nat) (c : TCell) : Heap :=
  { h with tcells := alSet h.tcells a c }

/-- Overwrite a parts-map cell (a mutation through a returned `Parts` map). -/
def hSetP (h : Heap) (a : Nat) (pm : List (Int × Bool)) : Heap :=
  { h with pcells := alSet h.pcells a pm }

/-- The `Status` loop (source lines 684-697): per live transfer, allocate a
fresh cell holding the shallow copy `*t2 = *t`, then allocate a fresh map,
copy the parts entries into it and point the new cell at it. -/
def statusLoop (acc : List Nat) : List (String × Nat) → Heap → List Nat × Heap
  | [], h => (acc, h)
  | (_, a) :: rest, h =>
    match hGetT h a with
    | none => statusLoop acc rest h
    | some c =>
      let ta := h.nextT
      let h1 : Heap := { h with tcells := alSet h.tcells ta c, nextT := ta + 1 }
      let pm := (hGetP h1 c.PartsAddr).getD []
      let pa := h1.nextP
      let h2 : Heap := { h1 with pcells := alSet h1.pcells pa pm, nextP := pa + 1 }
      let h3 := hSetT h2 ta { c with PartsAddr := pa }
      statusLoop (acc ++ [ta]) rest h3

/-- `Status` (source lines 678-700). -/
def Status (h : Heap) (ts : List (String × Nat)) : List Nat × Heap := statusLoop [] ts h

/-- Dereference a transfer pointer together with its parts map (missing map
reads as empty, the Go nil-map read semantics). -/
def deref (h : Heap) (a : Nat) : Option (TCell × List (Int × Bool)) :=
  match hGetT h a with
  | none => none
  | some c => some (c, (hGetP h c.PartsAddr).getD [])

/-- The observable contents of a dereferenced record: every field and the
parts map, with the internal parts address abstracted away. -/
def cellView : TCell × List (Int × Bool) →
    String × String × Nat × Int × Bool × List (Int × Bool)
  | (c, pm) => (c.Dir, c.Filename, c.NumParts, c.Inflight, c.Queued, pm)

/-- What the engine observes through its transfers map. -/
def engineView (h : Heap) (ts : List (String × Nat)) :
    List (String × Option (TCell × List (Int × Bool))) :=
  ts.map (fun e => (e.1, deref h e.2))

/-- Well-formedness of one registered address: a live allocation below the
counters whose parts map is also below its counter. -/
def wfAt (h : Heap) (a : Nat) : Bool :=
  decide (a < h.nextT) &&
    (match hGetT h a with
     | some c => decide (c.PartsAddr < h.nextP)
     | none => false)

def wf (h : Heap) (ts : List (String × Nat)) : Prop := ∀ e ∈ ts, wfAt h e.2 = true

theorem wfAt_spec (h : Heap) (a : Nat) (hw : wfAt h a = true) :
    a < h.nextT ∧ ∃ c, hGetT h a = some c ∧ c.PartsAddr < h.nextP := by
  unfold wfAt at hw
  cases hc : hGetT h a with
  | none =>
    rw [hc] at hw
    simp at hw
  | some c =>
    rw [hc] at hw
    simp at hw
    exact ⟨hw.1, c, rfl, hw.2⟩

theorem deref_preserved (h h2 : Heap) (a : Nat)
    (hT : ∀ x, x < h.nextT → hGetT h2 x = hGetT h x)
    (hP : ∀ x, x < h.nextP → hGetP h2 x = hGetP h x)
    (hwa : wfAt h a = true) : deref h2 a = deref h a := by
  obtain ⟨hlt, c, hc, hp⟩ := wfAt_spec h a hwa
  unfold deref
  rw [hT a hlt, hc]
  dsimp only
  rw [hP c.PartsAddr hp]

theorem engineView_congr (h1 h2 : Heap) (ts : List (String × Nat))
    (hall : ∀ e ∈ ts, deref h1 e.2 = deref h2 e.2) :
    engineView h1 ts = engineView h2 ts := by
  induction ts with
  | nil => rfl
  | cons e rest ih =>
    unfold engineView
    simp only [List.map_cons]
    rw [hall e (List.mem_cons_self e rest)]
    have := ih (fun e2 he2 => hall e2 (List.mem_cons_of_mem e he2))
    unfold engineView at this
    rw [this]

theorem forall2_deref_cast (h2 hX hY : Heap) :
    ∀ (l : List Nat) (ts : List (String × Nat)),
      List.Forall₂ (fun r e =>
        (deref h2 r).map cellView = (deref hX (Prod.snd e)).map cellView) l ts →
      (∀ e ∈ ts, deref hX e.2 = deref hY e.2) →
      List.Forall₂ (fun r e =>
        (deref h2 r).map cellView = (deref hY (Prod.snd e)).map cellView) l ts := by
  intro l ts hf
  induction hf with
  | nil =>
    intro _
    exact List.Forall₂.nil
  | @cons r e l2 ts2 hR hrest ih =>
    intro hcast
    refine List.Forall₂.cons ?_ (ih (fun e2 he2 => hcast e2 (List.mem_cons_of_mem _ he2)))
    rw [← hcast e (List.mem_cons_self _ _)]
    exact hR

theorem statusLoop_spec :
    ∀ (ts : List (String × Nat)) (h : Heap) (acc : List Nat),
      wf h ts →
      ∃ new h2,
        statusLoop acc ts h = (acc ++ new, h2)
        ∧ h.nextT ≤ h2.nextT ∧ h.nextP ≤ h2.nextP
        ∧ (∀ x, x < h.nextT → hGetT h2 x = hGetT h x)
        ∧ (∀ x, x < h.nextP → hGetP h2 x = hGetP h x)
        ∧ (∀ r ∈ new, h.nextT ≤ r ∧
            ∃ c, hGetT h2 r = some c ∧ h.nextP ≤ c.PartsAddr)
        ∧ List.Forall₂ (fun r (e : String × Nat) =>
            (deref h2 r).map cellView = (deref h (Prod.snd e)).map cellView) new ts := by
  intro ts
  induction ts with
  | nil =>
    intro h acc hwf
    exact ⟨[], h, by simp [statusLoop], le_refl _, le_refl _,
      fun x _ => rfl, fun x _ => rfl, by simp, List.Forall₂.nil⟩
  | cons e rest ih =>
    intro h acc hwf
    obtain ⟨f, a⟩ := e
    have hwa := hwf (f, a) (List.mem_cons_self _ _)
    obtain ⟨hlt, c, hc, hp⟩ := wfAt_spec h a hwa
    have hstep : statusLoop acc ((f, a) :: rest) h
        = statusLoop (acc ++ [h.nextT]) rest
            ({ tcells := alSet (alSet h.tcells h.nextT c) h.nextT
                 { c with PartsAddr := h.nextP },
               pcells := alSet h.pcells h.nextP ((hGetP h c.PartsAddr).getD []),
               nextT := h.nextT + 1, nextP := h.nextP + 1 } : Heap) := by
      conv_lhs => unfold statusLoop
      rw [hc]
      dsimp only [hSetT, hGetP]
    have hT3 : ∀ x, x < h.nextT →
        hGetT ({ tcells := alSet (alSet h.tcells h.nextT c) h.nextT
                   { c with PartsAddr := h.nextP },
                 pcells := alSet h.pcells h.nextP ((hGetP h c.PartsAddr).getD []),
                 nextT := h.nextT + 1, nextP := h.nextP + 1 } : Heap) x
          = hGetT h x := by
      intro x hx
      have hne : h.nextT ≠ x := by omega
      show alGet (alSet (alSet h.tcells h.nextT c) h.nextT
        { c with PartsAddr := h.nextP }) x = alGet h.tcells x
      rw [alGet_alSet_ne _ _ _ _ hne, alGet_alSet_ne _ _ _ _ hne]
    have hP3 : ∀ x, x < h.nextP →
        hGetP ({ tcells := alSet (alSet h.tcells h.nextT c) h.nextT
                   { c with PartsAddr := h.nextP },
                 pcells := alSet h.pcells h.nextP ((hGetP h c.PartsAddr).getD []),
                 nextT := h.nextT + 1, nextP := h.nextP + 1 } : Heap) x
          = hGetP h x := by
      intro x hx
      have hne : h.nextP ≠ x := by omega
      show alGet (alSet h.pcells h.nextP ((hGetP h c.PartsAddr).getD [])) x
        = alGet h.pcells x
      rw [alGet_alSet_ne _ _ _ _ hne]
    have hwf3 : wf ({ tcells := alSet (alSet h.tcells h.nextT c) h.nextT
                        { c with PartsAddr := h.nextP },
                      pcells := alSet h.pcells h.nextP ((hGetP h c.PartsAddr).getD []),
                      nextT := h.nextT + 1, nextP := h.nextP + 1 } : Heap) rest := by
      intro e2 he2
      have hw2 := hwf e2 (List.mem_cons_of_mem _ he2)
      obtain ⟨hlt2, c2, hc2, hp2⟩ := wfAt_spec h e2.2 hw2
      unfold wfAt
      rw [hT3 _ hlt2, hc2]
      simp only [Bool.and_eq_true, decide_eq_true_eq]
      exact ⟨by omega, by omega⟩
    obtain ⟨new2, h4, heq, hmT, hmP, hpT, hpP, hfr, hview⟩ :=
      ih ({ tcells := alSet (alSet h.tcells h.nextT c) h.nextT
              { c with PartsAddr := h.nextP },
            pcells := alSet h.pcells h.nextP ((hGetP h c.PartsAddr).getD []),
            nextT := h.nextT + 1, nextP := h.nextP + 1 } : Heap)
        (acc ++ [h.nextT]) hwf3
    have hcell : hGetT h4 h.nextT = some { c with PartsAddr := h.nextP } := by
      rw [hpT h.nextT (Nat.lt_succ_self _)]
      exact alGet_alSet_self _ _ _
    have hpm : hGetP h4 h.nextP = some ((hGetP h c.PartsAddr).getD []) := by
      rw [hpP h.nextP (Nat.lt_succ_self _)]
      exact alGet_alSet_self _ _ _
    refine ⟨h.nextT :: new2, h4, ?_, ?_, ?_, ?_, ?_, ?_, ?_⟩
    · rw [hstep, heq]
      simp
    · exact le_trans (Nat.le_succ _) hmT
    · exact le_trans (Nat.le_succ _) hmP
    · intro x hx
      exact (hpT x (Nat.lt_succ_of_lt hx)).trans (hT3 x hx)
    · intro x hx
      exact (hpP x (Nat.lt_succ_of_lt hx)).trans (hP3 x hx)
    · intro r hr
      rcases List.mem_cons.mp hr with hr | hr
      · subst hr
        exact ⟨le_refl _, { c with PartsAddr := h.nextP }, hcell, le_refl _⟩
      · obtain ⟨h5, c5, h6, h7⟩ := hfr r hr
        exact ⟨le_trans (Nat.le_succ _) h5, c5, h6, le_trans (Nat.le_succ _) h7⟩
    · refine List.Forall₂.cons ?_ ?_
      · show (deref h4 h.nextT).map cellView = (deref h a).map cellView
        unfold deref
        rw [hcell, hc]
        dsimp only
        rw [hpm]
        rfl
      · refine forall2_deref_cast h4 _ h new2 rest hview ?_
        intro e2 he2
        exact deref_preserved h _ e2.2 hT3 hP3 (hwf e2 (List.mem_cons_of_mem _ he2))

/-- C9: `Status` returns one fresh record per live transfer whose observable
contents (every field together with the completed-parts map) equal the
engine's record, each with a freshly allocated record cell and parts-map
cell: the engine's view through its transfers map is untouched by the call,
and stays untouched when any returned record or its parts map is overwritten
afterwards. -/
theorem status_deep_copy (h : Heap) (ts : List (String × Nat)) (hwf : wf h ts) :
    List.Forall₂ (fun r (e : String × Nat) =>
        (deref (Status h ts).2 r).map cellView = (deref h (Prod.snd e)).map cellView)
      (Status h ts).1 ts
    ∧ engineView (Status h ts).2 ts = engineView h ts
    ∧ ∀ r ∈ (Status h ts).1,
        (∀ c2, engineView (hSetT (Status h ts).2 r c2) ts = engineView h ts)
        ∧ ∀ pm2 c, hGetT (Status h ts).2 r = some c →
            engineView (hSetP (Status h ts).2 c.PartsAddr pm2) ts = engineView h ts := by
  obtain ⟨new2, h2, heq, hmT, hmP, hpT, hpP, hfr, hview⟩ := statusLoop_spec ts h [] hwf
  rw [List.nil_append] at heq
  have hs : Status h ts = (new2, h2) := heq
  rw [hs]
  dsimp only
  have hengine : engineView h2 ts = engineView h ts := by
    refine engineView_congr h2 h ts ?_
    intro e he
    exact deref_preserved h h2 e.2 hpT hpP (hwf e he)
  refine ⟨hview, hengine, ?_⟩
  intro r hr
  obtain ⟨hge, c, hcr, hcp⟩ := hfr r hr
  constructor
  · intro c2
    refine engineView_congr _ h ts ?_
    intro e he
    obtain ⟨hlt2, c3, hc3, hp3⟩ := wfAt_spec h e.2 (hwf e he)
    refine deref_preserved h _ e.2 ?_ ?_ (hwf e he)
    · intro x hx
      have hne : r ≠ x := by omega
      show alGet (alSet h2.tcells r c2) x = hGetT h x
      rw [alGet_alSet_ne _ _ _ _ hne]
      exact hpT x hx
    · intro x hx
      exact hpP x hx
  · intro pm2 c4 hc4
    have hcc : c4 = c := by
      rw [hcr] at hc4
      exact Option.some.inj hc4.symm
    subst hcc
    refine engineView_congr _ h ts ?_
    intro e he
    refine deref_preserved h _ e.2 ?_ ?_ (hwf e he)
    · intro x hx
      exact hpT x hx
    · intro x hx
      have hne : c4.PartsAddr ≠ x := by omega
      show alGet (alSet h2.pcells c4.PartsAddr pm2) x = hGetP h x
      rw [alGet_alSet_ne _ _ _ _ hne]
      exact hpP x hx

/-- A concrete transfer cell whose parts map lives at heap address 5. -/
def exCell : TCell :=
  { Dir := "b/transfer_0", Filename := "f", PartsAddr := 5, NumParts := 1,
    Inflight := -1, Queued := false }

/-- A concrete heap with one live transfer cell and its parts map. -/
def exHeap : Heap :=
  { tcells := [(0, exCell)], pcells := [(5, [(0, true)])], nextT := 1, nextP := 6 }

/-- The engine's transfers map for the concrete heap. -/
def exTs : List (String × Nat) := [("f", 0)]

/-- Witness for C9 on the concrete heap: one record is returned and the
engine's view is unchanged by the call. -/
theorem status_deep_copy_witness :
    engineView (Status exHeap exTs).2 exTs = engineView exHeap exTs
    ∧ (Status exHeap exTs).1.length = exTs.length := by
  have h := status_deep_copy exHeap exTs
    (by
      show ∀ e ∈ exTs, wfAt exHeap e.2 = true
      decide)
  exact ⟨h.2.1, List.Forall₂.length_eq h.1⟩

end Iomeshage
